import Mathlib

/-!
Shallow embedding of the history-ingestion and coupling-aggregation core of
the git-commit-coupling-visualizer repository
(src/server/readGitFiles/readGitFiles.ts), together with theorems settling
the specification claims about it.

String-processing primitives mirror the JavaScript semantics used by the
code: String.prototype.split with a string separator, String.prototype.trim,
String.prototype.includes, Array.prototype.join.
-/

/-- Whitespace predicate used by the trim model (covers the characters that
occur in git log output: space, tab, newline, carriage return). -/
def isJsWs (c : Char) : Bool :=
  c = ' ' || c = '\t' || c = '\n' || c = '\r'

/-- Model of JavaScript String.prototype.trim restricted to the whitespace
characters above. -/
def jsTrim (s : String) : String :=
  (((s.data.dropWhile isJsWs).reverse.dropWhile isJsWs).reverse).asString

/-- Whether the first list is an initial segment of the second. -/
def leadsWith : List Char → List Char → Bool
  | [], _ => true
  | _ :: _, [] => false
  | a :: as, b :: bs => a = b && leadsWith as bs

/-- Fuel-driven splitter on character lists, mirroring JavaScript
String.prototype.split with a non-empty string separator: scan left to
right, cut at each non-overlapping occurrence of the separator. -/
def splitFuel (sep : List Char) : Nat → List Char → List Char → List (List Char)
  | 0, s, acc => [acc.reverse ++ s]
  | fuel + 1, s, acc =>
    match s with
    | [] => [acc.reverse]
    | c :: rest =>
      if leadsWith sep (c :: rest) then
        acc.reverse :: splitFuel sep fuel ((c :: rest).drop sep.length) []
      else
        splitFuel sep fuel rest (c :: acc)

/-- Model of JavaScript String.prototype.split with a string separator. -/
def jsSplit (sep : String) (s : String) : List String :=
  (splitFuel sep.data (s.data.length + 1) s.data []).map List.asString

/-- Model of Array.prototype.join with separator slash. -/
def joinSlash : List String → String
  | [] => ""
  | [x] => x
  | x :: rest => x ++ "/" ++ joinSlash rest

/-- Whether the character sequence sub occurs contiguously inside s. -/
def containsSeq (sub : List Char) : List Char → Bool
  | [] => leadsWith sub []
  | c :: rest => leadsWith sub (c :: rest) || containsSeq sub rest

/-- Model of JavaScript String.prototype.includes. -/
def strIncludes (s sub : String) : Bool :=
  containsSeq sub.data s.data

/-- A parsed git commit record (interface GitCommit in readGitFiles.ts).
The date field holds the epoch-millisecond timestamp produced from the
ISO-8601 author date. -/
structure GitCommit where
  commitHash : String
  authorName : String
  date : Int
  changedFiles : List String
  comment : String
deriving DecidableEq, Repr

/-- Status letter of one name-status line: first tab-separated field. -/
def lineStatus (line : String) : String :=
  (jsSplit "\t" line).headD ""

/-- Path of one name-status line: second tab-separated field, when present. -/
def linePath (line : String) : Option String :=
  (jsSplit "\t" line).get? 1

/-- One iteration of the file-line loop of getGitHistory: a line survives
when it has a path field, the path is non-empty (JavaScript truthiness),
the status is not the delete status, and the path is in the included set;
surviving lines yield their path. -/
def lineSurvives (included : List String) (line : String) : Option String :=
  match (jsSplit "\t" line).get? 1 with
  | none => none
  | some fp =>
    if fp = "" then none
    else if (jsSplit "\t" line).headD "" = "D" then none
    else if fp ∈ included then some fp else none

/-- Parse of one entry between two commit markers, mirroring the body of the
entry loop in getGitHistory: trim, split into header line and file lines,
split the header on the bar character, collect surviving file paths, and
drop the entry when no file survives. The parameter pd models the external
Date parsing (new Date(iso).getTime()). -/
def processEntry (pd : String → Int) (included : List String) (entry : String) :
    Option GitCommit :=
  let lines := jsSplit "\n" (jsTrim entry)
  let headerParts := jsSplit "|" (lines.headD "")
  let matchingFiles := lines.tail.filterMap (lineSurvives included)
  if matchingFiles.isEmpty then none
  else
    some
      { commitHash := headerParts.getD 0 ""
        authorName := headerParts.getD 1 ""
        date := pd (headerParts.getD 2 "")
        changedFiles := matchingFiles
        comment := headerParts.getD 3 "" }

/-- The entry loop of getGitHistory: commits are pushed in the order their
entries appear in the raw log output (newest first). -/
def parseEntries (pd : String → Int) (included : List String) :
    List String → List GitCommit
  | [] => []
  | e :: rest =>
    match processEntry pd included e with
    | some c => c :: parseEntries pd included rest
    | none => parseEntries pd included rest

/-- Splitting the raw log output on the commit marker and keeping entries
with non-empty trim, as getGitHistory does before its entry loop. -/
def entriesOf (raw : String) : List String :=
  (jsSplit "--COMMIT--" raw).filter (fun e => jsTrim e ≠ "")

/-- The commit sequence getGitHistory returns when the subprocess runs:
parsed entries, reversed because git log emits newest first. -/
def historyOutput (pd : String → Int) (raw : String) (included : List String) :
    List GitCommit :=
  (parseEntries pd included (entriesOf raw)).reverse

/-- Model of getGitHistory. The pathExists flag models existsSync on the
repository path; raw models the stdout of the git log subprocess. The Bool
in the result records whether the subprocess was invoked. -/
def getGitHistoryModel (pd : String → Int) (pathExists : Bool) (raw : String)
    (includedFiles : List String) : Except String (List GitCommit × Bool) :=
  if !pathExists then Except.error "The path does not exist."
  else if includedFiles.isEmpty then Except.ok ([], false)
  else Except.ok (historyOutput pd raw includedFiles, true)

/-- Model of getGitTrackedFiles applied to the stdout of the listing
subprocess: split on newlines, drop empty strings (filter(Boolean)), and
when exclusion filters are present keep only paths containing none of them
as a substring. The current source performs no other transformation on the
listed paths. -/
def trackedFilesModel (stdout : String) (excludeFilters : List String) :
    List String :=
  let files := (jsSplit "\n" stdout).filter (fun s => s ≠ "")
  if excludeFilters.isEmpty then files
  else files.filter (fun filePath =>
    ! excludeFilters.any (fun filter => strIncludes filePath filter))

/-- Model of countLinesInFile. The file system is a partial map from paths
to line lists; an unreadable path makes the stream emit an error, which the
promise rejects with. -/
def countLinesInFileModel (fs : String → Option (List String)) (p : String) :
    Except String Nat :=
  match fs p with
  | none => Except.error p
  | some content => Except.ok content.length

/-- The line-counting phase of getRepoStatsInD3CompatibleFormat: one
countLinesInFile promise per enumerated file, combined with Promise.all,
which rejects as soon as any single promise rejects. -/
def filesWithLineCountModel (fs : String → Option (List String))
    (repoPath : String) : List String → Except String (List (String × Nat))
  | [] => Except.ok []
  | file :: rest =>
    match countLinesInFileModel fs (repoPath ++ "/" ++ file) with
    | Except.error e => Except.error e
    | Except.ok n =>
      match filesWithLineCountModel fs repoPath rest with
      | Except.error e => Except.error e
      | Except.ok others => Except.ok ((file, n) :: others)

/-- Push a contributor name if it is not already present, mirroring the
includes-then-push pattern of the aggregation loop. -/
def addUnique (l : List String) (a : String) : List String :=
  if a ∈ l then l else l ++ [a]

/-- Lookup in the insertion-ordered association list modelling the
JavaScript Map recentlyChangedTogetherMap (keys are unique by
construction, as in a JavaScript Map). -/
def mapGet : List (String × Nat) → String → Option Nat
  | [], _ => none
  | (a, v) :: rest, k => if a = k then some v else mapGet rest k

/-- The has-then-set(get+1)-else-set(1) pattern of the aggregation loop on
the insertion-ordered map model: bump the entry of an existing key in
place, or append a fresh entry with count one at the end. -/
def mapIncr : List (String × Nat) → String → List (String × Nat)
  | [], k => [(k, 1)]
  | (a, v) :: rest, k =>
    if a = k then (a, v + 1) :: rest else (a, v) :: mapIncr rest k

/-- Accumulator of the per-file pass over the commit sequence in
getRepoStatsInD3CompatibleFormat. -/
structure AggState where
  history : List GitCommit
  contributors : List String
  recentContributors : List String
  coMap : List (String × Nat)
deriving DecidableEq, Repr

/-- Body of the per-commit iteration for one file: when the commit touches
the file, append it to the file history and record the author; when the
commit is additionally strictly newer than the recency cutoff, record the
author as recent and bump the co-change counter of every other changed
file. -/
def stepCommit (filePath : String) (recentCutoff : Int) (st : AggState)
    (c : GitCommit) : AggState :=
  if filePath ∈ c.changedFiles then
    let st1 : AggState :=
      { st with
        history := st.history ++ [c]
        contributors := addUnique st.contributors c.authorName }
    if recentCutoff < c.date then
      { st1 with
        recentContributors := addUnique st1.recentContributors c.authorName
        coMap := c.changedFiles.foldl
          (fun m g => if g = filePath then m else mapIncr m g) st1.coMap }
    else st1
  else st

/-- Per-file aggregation over the whole parsed history. -/
def aggregateFile (gitHistory : List GitCommit) (recentCutoff : Int)
    (filePath : String) : AggState :=
  gitHistory.foldl (stepCommit filePath recentCutoff) ⟨[], [], [], []⟩

/-- Technical-debt likelihood tier (type TechDebt in readGitFiles.ts). -/
inductive TechDebt where
  | low
  | medium
  | high
deriving DecidableEq, Repr

/-- Peak co-change count: Math.max over the recentlyChangedTogether counts
when the array is non-empty, otherwise zero. -/
def mostChanges (rct : List (String × Nat)) : Nat :=
  if rct.length > 0 then (rct.map Prod.snd).foldl Nat.max 0 else 0

/-- The classifier block of getRepoStatsInD3CompatibleFormat: start at low,
upgrade to medium when the medium thresholds are reached, then upgrade to
high when the high thresholds are reached; both comparisons are inclusive
and the high check runs unconditionally after the medium check. -/
def techDebtFor (mc : Nat) (recentCount : Nat) (mediumCoChangesThreshold
    highCoChangesThreshold mediumContributorsThreshold
    highContributorsThreshold : Int) : TechDebt :=
  let d := TechDebt.low
  let d :=
    if mediumCoChangesThreshold ≤ (mc : Int) ∨
        mediumContributorsThreshold ≤ (recentCount : Int) then TechDebt.medium
    else d
  if highCoChangesThreshold ≤ (mc : Int) ∨
      highContributorsThreshold ≤ (recentCount : Int) then TechDebt.high
  else d

/-- A source file with its derived statistics (interface PieceOfCode). -/
structure PieceOfCode where
  filePath : String
  linesOfCode : Nat
  gitHistory : List GitCommit
  contributors : List String
  recentContributors : List String
  recentlyChangedTogether : List (String × Nat)
  techDebtLikelyhood : TechDebt
deriving DecidableEq, Repr

/-- Assembly of one PieceOfCode record in the aggregation loop: aggregate
the commit history for the file, then classify. -/
def pieceOfCodeFor (gitHistory : List GitCommit) (recentCutoff : Int)
    (filePath : String) (lines : Nat) (mediumCoChangesThreshold
    highCoChangesThreshold mediumContributorsThreshold
    highContributorsThreshold : Int) : PieceOfCode :=
  let st := aggregateFile gitHistory recentCutoff filePath
  { filePath := filePath
    linesOfCode := lines
    gitHistory := st.history
    contributors := st.contributors
    recentContributors := st.recentContributors
    recentlyChangedTogether := st.coMap
    techDebtLikelyhood :=
      techDebtFor (mostChanges st.coMap) st.recentContributors.length
        mediumCoChangesThreshold highCoChangesThreshold
        mediumContributorsThreshold highContributorsThreshold }

/-- A node of the nested structure produced by the final loop of
getRepoStatsInD3CompatibleFormat: either one PieceOfCode or a directory
carrying its slash-joined path and its children. -/
inductive TreeNode where
  | file (p : PieceOfCode)
  | dir (directoryPath : String) (children : List TreeNode)

/-- The find call of the nesting loop: locate the first item of the level
that is a directory whose stored directoryPath equals the current path
segment, returning the items before it, its path, its children and the
items after it. File nodes never match. -/
def findFirstDir (part : String) :
    List TreeNode →
      Option (List TreeNode × String × List TreeNode × List TreeNode)
  | [] => none
  | TreeNode.dir dp ch :: rest =>
    if dp = part then some ([], dp, ch, rest)
    else
      (findFirstDir part rest).map
        (fun r => (TreeNode.dir dp ch :: r.1, r.2.1, r.2.2.1, r.2.2.2))
  | TreeNode.file f :: rest =>
    (findFirstDir part rest).map
      (fun r => (TreeNode.file f :: r.1, r.2.1, r.2.2.1, r.2.2.2))

/-- One path insertion of the nesting loop. The parameter allParts is the
full segment list of the file path (used for the slice-join when a new
directory is created), idx the current segment index, and the last
argument the current level. When the find call locates a directory, the
walk descends into its children in place; otherwise a file node is pushed
for the last segment, or a directory node carrying the slash-join of the
first idx+1 segments is pushed and the walk continues inside it. -/
def insertPieceAt (pc : PieceOfCode) (allParts : List String) :
    Nat → List String → List TreeNode → List TreeNode
  | _, [], level => level
  | idx, part :: rest, level =>
    match findFirstDir part level with
    | some r =>
      r.1 ++ TreeNode.dir r.2.1 (insertPieceAt pc allParts (idx + 1) rest r.2.2.1) :: r.2.2.2
    | none =>
      if rest.isEmpty then level ++ [TreeNode.file pc]
      else
        level ++
          [TreeNode.dir (joinSlash (allParts.take (idx + 1)))
            (insertPieceAt pc allParts (idx + 1) rest [])]

/-- The nesting loop of getRepoStatsInD3CompatibleFormat: fold every
PieceOfCode into the structure, splitting its path on slashes. -/
def buildTree (files : List PieceOfCode) : List TreeNode :=
  files.foldl
    (fun acc pc => insertPieceAt pc (jsSplit "/" pc.filePath) 0
      (jsSplit "/" pc.filePath) acc) []

mutual

/-- Number of nodes of the given tree whose stored path (filePath for file
nodes, directoryPath for directory nodes) equals p. -/
def countPath (p : String) : TreeNode → Nat
  | TreeNode.file f => if f.filePath = p then 1 else 0
  | TreeNode.dir dp children =>
    (if dp = p then 1 else 0) + countPathL p children

/-- Sum of countPath over a list of trees. -/
def countPathL (p : String) : List TreeNode → Nat
  | [] => 0
  | t :: rest => countPath p t + countPathL p rest

end

/-- The name-status lines of an entry: everything after the header line. -/
def fileLinesOf (entry : String) : List String :=
  (jsSplit "\n" (jsTrim entry)).tail

/-- Concrete file system used to exercise the line-counting model: one
readable file, everything else unreadable. -/
def fsEx : String → Option (List String) :=
  fun p => if p = "r/good.ts" then some ["l1", "l2"] else none

/-- Bumping a key makes its stored count one larger than before (absent
keys count as zero). -/
theorem mapGet_mapIncr_self (m : List (String × Nat)) (k : String) :
    mapGet (mapIncr m k) k = some ((mapGet m k).getD 0 + 1) := by
  induction m with
  | nil => simp [mapIncr, mapGet]
  | cons kv rest ih =>
    obtain ⟨a, v⟩ := kv
    by_cases h : a = k
    · simp [mapIncr, mapGet, h]
    · simp [mapIncr, mapGet, h, ih]

/-- Bumping a key leaves every other key untouched. -/
theorem mapGet_mapIncr_ne (m : List (String × Nat)) (k g : String)
    (h : g ≠ k) : mapGet (mapIncr m k) g = mapGet m g := by
  have hkg : ¬k = g := fun hh => h hh.symm
  induction m with
  | nil => simp [mapIncr, mapGet, hkg]
  | cons kv rest ih =>
    obtain ⟨a, v⟩ := kv
    by_cases ha : a = k
    · subst ha
      simp [mapIncr, mapGet, hkg]
    · simp [mapIncr, mapGet, ha, ih]

/-- Effect of the inner co-change fold of one recent commit on the count
stored under g: it grows by the number of occurrences of g among the
changed files, provided g is not the file being aggregated. -/
theorem coFold_get (f g : String) (hg : g ≠ f) (l : List String) :
    ∀ m : List (String × Nat),
      (mapGet (l.foldl (fun m x => if x = f then m else mapIncr m x) m) g).getD 0
        = (mapGet m g).getD 0 + l.count g := by
  induction l with
  | nil => intro m; simp
  | cons x rest ih =>
    intro m
    rw [List.foldl_cons]
    by_cases hx : x = f
    · rw [if_pos hx, ih]
      have hxg : g ≠ x := fun hh => hg (by rw [hh, hx])
      simp [List.count_cons, hxg]
    · rw [if_neg hx, ih]
      by_cases hxg : x = g
      · subst hxg
        rw [mapGet_mapIncr_self]
        simp [List.count_cons]
        omega
      · have h2 : g ≠ x := fun hh => hxg hh.symm
        rw [mapGet_mapIncr_ne _ _ _ h2]
        simp [List.count_cons, h2]

/-- The inner co-change fold never creates an entry for the aggregated
file itself. -/
theorem coFold_get_self (f : String) (l : List String) :
    ∀ m : List (String × Nat),
      mapGet (l.foldl (fun m x => if x = f then m else mapIncr m x) m) f
        = mapGet m f := by
  induction l with
  | nil => intro m; rfl
  | cons x rest ih =>
    intro m
    rw [List.foldl_cons]
    by_cases hx : x = f
    · rw [if_pos hx, ih]
    · have h2 : f ≠ x := fun hh => hx hh.symm
      rw [if_neg hx, ih, mapGet_mapIncr_ne _ _ _ h2]

/-- Membership after the includes-then-push step. -/
theorem mem_addUnique (l : List String) (a b : String) :
    a ∈ addUnique l b ↔ a ∈ l ∨ a = b := by
  unfold addUnique
  by_cases h : b ∈ l
  · rw [if_pos h]
    constructor
    · exact Or.inl
    · rintro (ha | ha)
      · exact ha
      · rw [ha]; exact h
  · rw [if_neg h]
    simp

/-- Effect of one commit on the co-change count stored under g, for g
distinct from the aggregated file, assuming the commit lists each changed
file once: the count grows by one exactly when the commit is strictly more
recent than the cutoff and touches both files. -/
theorem stepCommit_coMap_get (f g : String) (hg : g ≠ f) (cutoff : Int)
    (st : AggState) (c : GitCommit) (hnd : c.changedFiles.Nodup) :
    (mapGet (stepCommit f cutoff st c).coMap g).getD 0 =
      (mapGet st.coMap g).getD 0 +
        (if cutoff < c.date ∧ f ∈ c.changedFiles ∧ g ∈ c.changedFiles
          then 1 else 0) := by
  unfold stepCommit
  by_cases hf : f ∈ c.changedFiles
  · rw [if_pos hf]
    by_cases hd : cutoff < c.date
    · rw [if_pos hd]
      dsimp only
      rw [coFold_get f g hg]
      by_cases hgc : g ∈ c.changedFiles
      · rw [List.count_eq_one_of_mem hnd hgc]
        simp [hd, hf, hgc]
      · rw [List.count_eq_zero.mpr hgc]
        simp [hgc]
    · rw [if_neg hd]
      simp [hd]
  · rw [if_neg hf]
    simp [hf]

/-- One commit never creates a co-change entry under the aggregated file
itself. -/
theorem stepCommit_coMap_self (f : String) (cutoff : Int) (st : AggState)
    (c : GitCommit) :
    mapGet (stepCommit f cutoff st c).coMap f = mapGet st.coMap f := by
  unfold stepCommit
  by_cases hf : f ∈ c.changedFiles
  · rw [if_pos hf]
    by_cases hd : cutoff < c.date
    · rw [if_pos hd]
      dsimp only
      rw [coFold_get_self]
    · rw [if_neg hd]
  · rw [if_neg hf]

/-- Membership in the recent contributors after one commit step. -/
theorem stepCommit_recent_mem (f : String) (cutoff : Int) (st : AggState)
    (c : GitCommit) (a : String) :
    a ∈ (stepCommit f cutoff st c).recentContributors ↔
      a ∈ st.recentContributors ∨
        (cutoff < c.date ∧ f ∈ c.changedFiles ∧ c.authorName = a) := by
  unfold stepCommit
  by_cases hf : f ∈ c.changedFiles
  · rw [if_pos hf]
    by_cases hd : cutoff < c.date
    · rw [if_pos hd]
      dsimp only
      rw [mem_addUnique]
      constructor
      · rintro (h | h)
        · exact Or.inl h
        · exact Or.inr ⟨hd, hf, h.symm⟩
      · rintro (h | ⟨-, -, h⟩)
        · exact Or.inl h
        · exact Or.inr h.symm
    · rw [if_neg hd]
      simp [hd]
  · rw [if_neg hf]
    simp [hf]

/-- Fold version of the co-change count lemma, with an arbitrary starting
accumulator. -/
theorem aggFold_coMap_get (f g : String) (hg : g ≠ f) (cutoff : Int) :
    ∀ (hist : List GitCommit) (st : AggState),
      (∀ c ∈ hist, c.changedFiles.Nodup) →
      (mapGet ((hist.foldl (stepCommit f cutoff) st).coMap) g).getD 0 =
        (mapGet st.coMap g).getD 0 +
          (hist.filter (fun c => decide (cutoff < c.date) &&
            decide (f ∈ c.changedFiles) &&
            decide (g ∈ c.changedFiles))).length := by
  intro hist
  induction hist with
  | nil => intro st _; simp
  | cons c t ih =>
    intro st hnd
    rw [List.foldl_cons,
      ih _ (fun x hx => hnd x (List.mem_cons_of_mem _ hx)),
      stepCommit_coMap_get f g hg cutoff st c (hnd c (List.mem_cons_self _ _)),
      List.filter_cons]
    by_cases hq : cutoff < c.date ∧ f ∈ c.changedFiles ∧ g ∈ c.changedFiles
    · rw [if_pos hq]
      have : (decide (cutoff < c.date) && decide (f ∈ c.changedFiles) &&
          decide (g ∈ c.changedFiles)) = true := by
        simp [hq.1, hq.2.1, hq.2.2]
      rw [this]
      simp
      omega
    · rw [if_neg hq]
      have : (decide (cutoff < c.date) && decide (f ∈ c.changedFiles) &&
          decide (g ∈ c.changedFiles)) = false := by
        by_contra hb
        apply hq
        have hb2 := eq_true_of_ne_false hb
        simp at hb2
        exact ⟨hb2.1.1, hb2.1.2, hb2.2⟩
      rw [this]
      simp

/-- Fold version of the self-key lemma. -/
theorem aggFold_coMap_self (f : String) (cutoff : Int) :
    ∀ (hist : List GitCommit) (st : AggState),
      mapGet ((hist.foldl (stepCommit f cutoff) st).coMap) f =
        mapGet st.coMap f := by
  intro hist
  induction hist with
  | nil => intro st; rfl
  | cons c t ih =>
    intro st
    rw [List.foldl_cons, ih, stepCommit_coMap_self]

/-- Fold version of the recent-contributor membership lemma. -/
theorem aggFold_recent_mem (f : String) (cutoff : Int) (a : String) :
    ∀ (hist : List GitCommit) (st : AggState),
      a ∈ ((hist.foldl (stepCommit f cutoff) st).recentContributors) ↔
        a ∈ st.recentContributors ∨
          ∃ c ∈ hist, cutoff < c.date ∧ f ∈ c.changedFiles ∧
            c.authorName = a := by
  intro hist
  induction hist with
  | nil => intro st; simp
  | cons c t ih =>
    intro st
    rw [List.foldl_cons, ih, stepCommit_recent_mem]
    constructor
    · rintro ((h | h) | ⟨x, hx, hxx⟩)
      · exact Or.inl h
      · exact Or.inr ⟨c, List.mem_cons_self _ _, h⟩
      · exact Or.inr ⟨x, List.mem_cons_of_mem _ hx, hxx⟩
    · rintro (h | ⟨x, hx, hxx⟩)
      · exact Or.inl (Or.inl h)
      · rcases List.mem_cons.mp hx with hx | hx
        · exact Or.inl (Or.inr (hx ▸ hxx))
        · exact Or.inr ⟨x, hx, hxx⟩

/-- C1: in the per-file aggregation, the co-change count recorded under a
path g distinct from the aggregated file f equals the number of parsed
commits strictly newer than the recency cutoff whose changed-file list
contains both f and g; f never appears as a key of its own co-change map;
and an author is a recent contributor of f exactly when some commit
strictly newer than the cutoff contains f and has that author. Commits are
assumed to list each changed file once, as in the data model of the
specification where changed files form a set. -/
theorem aggregate_coChange_counts_c1 (hist : List GitCommit) (cutoff : Int)
    (f g a : String) (hg : g ≠ f)
    (hnd : ∀ c ∈ hist, c.changedFiles.Nodup) :
    (mapGet (aggregateFile hist cutoff f).coMap g).getD 0 =
      (hist.filter (fun c => decide (cutoff < c.date) &&
        decide (f ∈ c.changedFiles) && decide (g ∈ c.changedFiles))).length
    ∧ mapGet (aggregateFile hist cutoff f).coMap f = none
    ∧ (a ∈ (aggregateFile hist cutoff f).recentContributors ↔
        ∃ c ∈ hist, cutoff < c.date ∧ f ∈ c.changedFiles ∧
          c.authorName = a) := by
  refine ⟨?_, ?_, ?_⟩
  · rw [aggregateFile, aggFold_coMap_get f g hg cutoff hist _ hnd]
    simp [mapGet]
  · rw [aggregateFile, aggFold_coMap_self]
    rfl
  · rw [aggregateFile, aggFold_recent_mem]
    simp

/-- Witness for C1 at a concrete two-commit history. -/
theorem aggregate_coChange_counts_c1_witness :
    (mapGet (aggregateFile
        [⟨"h1", "alice", 10, ["f.ts", "g.ts"], "m1"⟩,
         ⟨"h2", "bob", 5, ["f.ts", "g.ts"], "m2"⟩] 7 "f.ts").coMap
      "g.ts").getD 0 =
      ([⟨"h1", "alice", 10, ["f.ts", "g.ts"], "m1"⟩,
        ⟨"h2", "bob", 5, ["f.ts", "g.ts"], "m2"⟩].filter
          (fun c : GitCommit => decide ((7 : Int) < c.date) &&
            decide ("f.ts" ∈ c.changedFiles) &&
            decide ("g.ts" ∈ c.changedFiles))).length
    ∧ mapGet (aggregateFile
        [⟨"h1", "alice", 10, ["f.ts", "g.ts"], "m1"⟩,
         ⟨"h2", "bob", 5, ["f.ts", "g.ts"], "m2"⟩] 7 "f.ts").coMap
      "f.ts" = none
    ∧ ("alice" ∈ (aggregateFile
        [⟨"h1", "alice", 10, ["f.ts", "g.ts"], "m1"⟩,
         ⟨"h2", "bob", 5, ["f.ts", "g.ts"], "m2"⟩] 7 "f.ts").recentContributors ↔
        ∃ c ∈ ([⟨"h1", "alice", 10, ["f.ts", "g.ts"], "m1"⟩,
          ⟨"h2", "bob", 5, ["f.ts", "g.ts"], "m2"⟩] : List GitCommit),
          (7 : Int) < c.date ∧ "f.ts" ∈ c.changedFiles ∧
            c.authorName = "alice") :=
  aggregate_coChange_counts_c1
    [⟨"h1", "alice", 10, ["f.ts", "g.ts"], "m1"⟩,
     ⟨"h2", "bob", 5, ["f.ts", "g.ts"], "m2"⟩] 7 "f.ts" "g.ts" "alice"
    (by decide) (by decide)

/-- Subset relation between the two contributor accumulators is preserved
by one commit step. -/
theorem stepCommit_contrib_subset (f : String) (cutoff : Int) (st : AggState)
    (c : GitCommit) (h : st.recentContributors ⊆ st.contributors) :
    (stepCommit f cutoff st c).recentContributors ⊆
      (stepCommit f cutoff st c).contributors := by
  unfold stepCommit
  by_cases hf : f ∈ c.changedFiles
  · rw [if_pos hf]
    by_cases hd : cutoff < c.date
    · rw [if_pos hd]
      intro x hx
      dsimp only at hx ⊢
      rw [mem_addUnique] at hx ⊢
      rcases hx with hx | hx
      · exact Or.inl (h hx)
      · exact Or.inr hx
    · rw [if_neg hd]
      intro x hx
      dsimp only at hx ⊢
      rw [mem_addUnique]
      exact Or.inl (h hx)
  · rw [if_neg hf]
    exact h

/-- C10: every recent contributor of a file is also an all-time
contributor of that file, for any commit sequence and recency cutoff. -/
theorem recent_subset_contributors_c10 (hist : List GitCommit)
    (cutoff : Int) (f : String) :
    (aggregateFile hist cutoff f).recentContributors ⊆
      (aggregateFile hist cutoff f).contributors := by
  rw [aggregateFile]
  have main : ∀ (l : List GitCommit) (st : AggState),
      st.recentContributors ⊆ st.contributors →
      (l.foldl (stepCommit f cutoff) st).recentContributors ⊆
        (l.foldl (stepCommit f cutoff) st).contributors := by
    intro l
    induction l with
    | nil => intro st h; exact h
    | cons c t ih =>
      intro st h
      rw [List.foldl_cons]
      exact ih _ (stepCommit_contrib_subset f cutoff st c h)
  exact main hist ⟨[], [], [], []⟩ (by intro x hx; cases hx)

/-- Witness for C10 at a concrete history: a recent contributor is an
all-time contributor. -/
theorem recent_subset_contributors_c10_witness :
    "alice" ∈ (aggregateFile [⟨"h1", "alice", 10, ["f.ts"], "m1"⟩] 7
      "f.ts").contributors :=
  recent_subset_contributors_c10 [⟨"h1", "alice", 10, ["f.ts"], "m1"⟩] 7
    "f.ts" (by decide)

/-- C3: the classifier assigns the high tier exactly when the peak
co-change count (zero for an empty co-change map) reaches the high
co-change threshold or the number of recent contributors reaches the high
contributor threshold; the comparison is inclusive and independent of the
medium condition. -/
theorem classifier_high_iff_c3 (hist : List GitCommit) (cutoff : Int)
    (fp : String) (lines : Nat)
    (mediumCo highCo mediumContrib highContrib : Int) :
    (pieceOfCodeFor hist cutoff fp lines mediumCo highCo mediumContrib
        highContrib).techDebtLikelyhood = TechDebt.high ↔
      (highCo ≤ ((mostChanges (aggregateFile hist cutoff fp).coMap : Nat) : Int) ∨
        highContrib ≤
          (((aggregateFile hist cutoff fp).recentContributors.length : Nat) : Int)) := by
  unfold pieceOfCodeFor techDebtFor
  dsimp only
  by_cases hh : highCo ≤ ((mostChanges (aggregateFile hist cutoff fp).coMap : Nat) : Int) ∨
      highContrib ≤ (((aggregateFile hist cutoff fp).recentContributors.length : Nat) : Int)
  · rw [if_pos hh]
    simp [hh]
  · rw [if_neg hh]
    by_cases hm : mediumCo ≤ ((mostChanges (aggregateFile hist cutoff fp).coMap : Nat) : Int) ∨
        mediumContrib ≤ (((aggregateFile hist cutoff fp).recentContributors.length : Nat) : Int)
    · rw [if_pos hm]
      simp [hh]
    · rw [if_neg hm]
      simp [hh]

/-- Characterization of surviving name-status lines, assuming the empty
string is not among the included paths (true of any tracked-file list,
which never contains empty paths). -/
theorem lineSurvives_iff (included : List String) (line fp : String)
    (hempty : "" ∉ included) :
    lineSurvives included line = some fp ↔
      linePath line = some fp ∧ lineStatus line ≠ "D" ∧ fp ∈ included := by
  unfold lineSurvives linePath lineStatus
  cases h : (jsSplit "\t" line).get? 1 with
  | none => simp [h]
  | some p =>
    simp only [h]
    by_cases hp : p = ""
    · subst hp
      rw [if_pos rfl]
      constructor
      · intro hc; cases hc
      · rintro ⟨hfp, -, hmem⟩
        cases hfp
        exact absurd hmem hempty
    · rw [if_neg hp]
      by_cases hd : (jsSplit "\t" line).headD "" = "D"
      · rw [if_pos hd]
        constructor
        · intro hc; cases hc
        · rintro ⟨-, hds, -⟩
          exact absurd hd hds
      · rw [if_neg hd]
        by_cases hmem : p ∈ included
        · rw [if_pos hmem]
          constructor
          · intro hc
            cases hc
            exact ⟨rfl, hd, hmem⟩
          · rintro ⟨hfp, -, -⟩
            cases hfp
            rfl
        · rw [if_neg hmem]
          constructor
          · intro hc; cases hc
          · rintro ⟨hfp, -, hmem2⟩
            cases hfp
            exact absurd hmem2 hmem

/-- The changed files of a parsed commit are the surviving paths of its
name-status lines. -/
theorem processEntry_changedFiles (pd : String → Int)
    (included : List String) (entry : String) (c : GitCommit)
    (h : processEntry pd included entry = some c) :
    c.changedFiles = (fileLinesOf entry).filterMap (lineSurvives included) := by
  unfold processEntry at h
  by_cases he : ((jsSplit "\n" (jsTrim entry)).tail.filterMap
      (lineSurvives included)).isEmpty
  · rw [if_pos he] at h
    cases h
  · rw [if_neg he] at h
    cases h
    rfl

/-- An entry parses to a commit exactly when some of its name-status lines
survives. -/
theorem processEntry_isSome_iff (pd : String → Int) (included : List String)
    (entry : String) :
    (∃ c, processEntry pd included entry = some c) ↔
      (fileLinesOf entry).filterMap (lineSurvives included) ≠ [] := by
  unfold processEntry fileLinesOf
  by_cases he : ((jsSplit "\n" (jsTrim entry)).tail.filterMap
      (lineSurvives included)).isEmpty
  · rw [if_pos he]
    have hnil := List.isEmpty_iff.mp he
    simp [hnil]
  · rw [if_neg he]
    constructor
    · intro _ hnil
      rw [hnil] at he
      exact he rfl
    · intro _
      exact ⟨_, rfl⟩

/-- A commit parsed from an entry of the raw output is in the parsed
sequence. -/
theorem mem_parseEntries (pd : String → Int) (included : List String)
    (entries : List String) (e : String) (c : GitCommit)
    (hmem : e ∈ entries) (h : processEntry pd included e = some c) :
    c ∈ parseEntries pd included entries := by
  induction entries with
  | nil => cases hmem
  | cons x rest ih =>
    rcases List.mem_cons.mp hmem with hx | hx
    · subst hx
      rw [parseEntries, h]
      exact List.mem_cons_self _ _
    · rw [parseEntries]
      cases processEntry pd included x with
      | none => exact ih hx
      | some c2 => exact List.mem_cons_of_mem _ (ih hx)

/-- C4: with a non-empty included-file list (free of empty paths), a
commit record parsed from an entry of the raw log appears in the history
output exactly when at least one of the entry's status lines has a
non-delete status and a path contained in the included list; and the
changed files of a parsed commit are exactly the paths referenced by some
surviving status line, so delete-status lines never contribute and a
commit whose surviving changed-file list is empty is dropped. -/
theorem history_commit_filtering_c4 (pd : String → Int)
    (included : List String) (raw : String)
    (hempty : "" ∉ included) (hne : included ≠ [])
    (entry : String) (hentry : entry ∈ entriesOf raw) :
    getGitHistoryModel pd true raw included =
      Except.ok (historyOutput pd raw included, true)
    ∧ ((∃ c, processEntry pd included entry = some c ∧
          c ∈ historyOutput pd raw included) ↔
        ∃ line ∈ fileLinesOf entry, ∃ fp, linePath line = some fp ∧
          lineStatus line ≠ "D" ∧ fp ∈ included)
    ∧ (∀ c, processEntry pd included entry = some c →
        ∀ fp, (fp ∈ c.changedFiles ↔
          ∃ line ∈ fileLinesOf entry, linePath line = some fp ∧
            lineStatus line ≠ "D" ∧ fp ∈ included)) := by
  refine ⟨?_, ?_, ?_⟩
  · cases included with
    | nil => exact absurd rfl hne
    | cons x t => rfl
  · constructor
    · rintro ⟨c, hc, -⟩
      have hne2 := (processEntry_isSome_iff pd included entry).mp ⟨c, hc⟩
      rcases List.exists_mem_of_ne_nil _ hne2 with ⟨fp, hfp⟩
      rcases List.mem_filterMap.mp hfp with ⟨line, hline, hs⟩
      rcases (lineSurvives_iff included line fp hempty).mp hs with ⟨h1, h2, h3⟩
      exact ⟨line, hline, fp, h1, h2, h3⟩
    · rintro ⟨line, hline, fp, h1, h2, h3⟩
      have hs := (lineSurvives_iff included line fp hempty).mpr ⟨h1, h2, h3⟩
      have hmemf : fp ∈ (fileLinesOf entry).filterMap (lineSurvives included) :=
        List.mem_filterMap.mpr ⟨line, hline, hs⟩
      have hne2 : (fileLinesOf entry).filterMap (lineSurvives included) ≠ [] :=
        List.ne_nil_of_mem hmemf
      rcases (processEntry_isSome_iff pd included entry).mpr hne2 with ⟨c, hc⟩
      refine ⟨c, hc, ?_⟩
      unfold historyOutput
      rw [List.mem_reverse]
      exact mem_parseEntries pd included _ entry c hentry hc
  · intro c hc fp
    rw [processEntry_changedFiles pd included entry c hc, List.mem_filterMap]
    constructor
    · rintro ⟨line, hline, hs⟩
      rcases (lineSurvives_iff included line fp hempty).mp hs with ⟨h1, h2, h3⟩
      exact ⟨line, hline, h1, h2, h3⟩
    · rintro ⟨line, hline, h1, h2, h3⟩
      exact ⟨line, hline,
        (lineSurvives_iff included line fp hempty).mpr ⟨h1, h2, h3⟩⟩

/-- Witness for C4 at a concrete raw log with one add line and one delete
line. -/
theorem history_commit_filtering_c4_witness :
    (∃ c, processEntry (fun s => (s.length : Int)) ["f.ts"]
        "\nh1|alice|AAAA|m1\nA\tf.ts\nD\tgone.ts" = some c ∧
      c ∈ historyOutput (fun s => (s.length : Int))
        "--COMMIT--\nh1|alice|AAAA|m1\nA\tf.ts\nD\tgone.ts" ["f.ts"]) ↔
      ∃ line ∈ fileLinesOf "\nh1|alice|AAAA|m1\nA\tf.ts\nD\tgone.ts",
        ∃ fp, linePath line = some fp ∧ lineStatus line ≠ "D" ∧
          fp ∈ ["f.ts"] :=
  (history_commit_filtering_c4 (fun s => (s.length : Int)) ["f.ts"]
    "--COMMIT--\nh1|alice|AAAA|m1\nA\tf.ts\nD\tgone.ts" (by decide)
    (by decide) "\nh1|alice|AAAA|m1\nA\tf.ts\nD\tgone.ts" (by decide)).2.1

/-- C5: with a non-empty included-file list, the history output is the
reversal of the newest-first parsed commit sequence, and whenever the
parsed sequence is non-increasing in timestamp (git log emits newest
first) the returned sequence is non-decreasing in timestamp, oldest at
index zero. -/
theorem history_reversal_ordering_c5 (pd : String → Int) (raw : String)
    (included : List String) (hne : included ≠ []) :
    getGitHistoryModel pd true raw included =
      Except.ok ((parseEntries pd included (entriesOf raw)).reverse, true)
    ∧ (List.Pairwise (fun a b : GitCommit => b.date ≤ a.date)
          (parseEntries pd included (entriesOf raw)) →
        List.Pairwise (fun a b : GitCommit => a.date ≤ b.date)
          (historyOutput pd raw included)) := by
  constructor
  · cases included with
    | nil => exact absurd rfl hne
    | cons x t => rfl
  · intro h
    unfold historyOutput
    exact List.pairwise_reverse.mpr h

/-- Witness for C5 at a concrete two-commit raw log emitted newest
first. -/
theorem history_reversal_ordering_c5_witness :
    List.Pairwise (fun a b : GitCommit => a.date ≤ b.date)
      (historyOutput (fun s => (s.length : Int))
        "--COMMIT--\nh1|alice|AAAA|m1\nA\tf.ts\n--COMMIT--\nh2|bob|AA|m2\nM\tf.ts"
        ["f.ts"]) :=
  (history_reversal_ordering_c5 (fun s => (s.length : Int))
    "--COMMIT--\nh1|alice|AAAA|m1\nA\tf.ts\n--COMMIT--\nh2|bob|AA|m2\nM\tf.ts"
    ["f.ts"] (by decide)).2 (by decide)

/-- C8: when the repository path exists and the included-file list is
empty, the history function returns the empty sequence and the log
subprocess is never invoked. -/
theorem empty_included_no_subprocess_c8 (pd : String → Int) (raw : String) :
    getGitHistoryModel pd true raw [] = Except.ok ([], false) := rfl

/-- C2: evaluation of the tree builder at two files sharing the nested
directory a/b. The find call compares the stored slash-joined
directoryPath against the bare path segment, so at depth two the existing
directory is never found again and a second node with path a/b is
created: the distinct path a/b appears in two nodes, not one. -/
theorem tree_distinct_paths_c2_bug :
    countPathL "a/b" (buildTree
      [⟨"a/b/x.ts", 1, [], [], [], [], TechDebt.low⟩,
       ⟨"a/b/y.ts", 1, [], [], [], [], TechDebt.low⟩]) = 2 := by
  decide

/-- C9: evaluation of the tree builder at a duplicated input path. The
find call only ever matches directory nodes, so re-inserting an
already-present file path appends a second file node instead of leaving
the structure unchanged: insertion is not idempotent. -/
theorem tree_duplicate_insertion_c9_bug :
    countPathL "x.ts" (buildTree
      [⟨"x.ts", 1, [], [], [], [], TechDebt.low⟩,
       ⟨"x.ts", 1, [], [], [], [], TechDebt.low⟩]) = 2 ∧
    countPathL "x.ts" (buildTree
      [⟨"x.ts", 1, [], [], [], [], TechDebt.low⟩]) = 1 := by
  decide

/-- Counterexample to C6: a listed path that is quoted and contains octal
escape sequences is returned verbatim by the file enumerator of the
current source, with the quotes and escapes intact rather than decoded. -/
theorem tracked_files_c6_counterexample :
    trackedFilesModel "\"a\\342\\200\\223b.ts\"\nplain.ts\n" [] =
      ["\"a\\342\\200\\223b.ts\"", "plain.ts"] ∧
    ("\"a\\342\\200\\223b.ts\"" : String) ≠ "a–b.ts" := by
  constructor
  · decide
  · decide

/-- C6 as amended: the enumerator performs no normalization; every
returned path is verbatim a non-empty line of the listing output. -/
theorem tracked_files_verbatim_c6 (stdout : String) (excl : List String)
    (p : String) (hp : p ∈ trackedFilesModel stdout excl) :
    p ∈ jsSplit "\n" stdout ∧ p ≠ "" := by
  unfold trackedFilesModel at hp
  by_cases h : excl.isEmpty
  · rw [if_pos h] at hp
    rcases List.mem_filter.mp hp with ⟨h1, h2⟩
    exact ⟨h1, by simpa using h2⟩
  · rw [if_neg h] at hp
    rcases List.mem_filter.mp hp with ⟨hp2, -⟩
    rcases List.mem_filter.mp hp2 with ⟨h1, h2⟩
    exact ⟨h1, by simpa using h2⟩

/-- Witness for the amended C6 at a concrete listing output. -/
theorem tracked_files_verbatim_c6_witness :
    "plain.ts" ∈ jsSplit "\n" "\"a\\342\\200\\223b.ts\"\nplain.ts\n" ∧
      ("plain.ts" : String) ≠ "" :=
  tracked_files_verbatim_c6 "\"a\\342\\200\\223b.ts\"\nplain.ts\n" []
    "plain.ts" (by decide)

/-- Counterexample to C7: with one readable and one unreadable file, the
line-counting phase rejects with the unreadable path instead of
completing with a sentinel statistics record. -/
theorem line_count_abort_c7_counterexample :
    filesWithLineCountModel fsEx "r" ["good.ts", "bad.ts"] =
      Except.error "r/bad.ts" ∧
    ¬ ∃ l, filesWithLineCountModel fsEx "r" ["good.ts", "bad.ts"] =
      Except.ok l := by
  constructor
  · rfl
  · rintro ⟨l, hl⟩
    rw [show filesWithLineCountModel fsEx "r" ["good.ts", "bad.ts"] =
      Except.error "r/bad.ts" from rfl] at hl
    cases hl

/-- C7 as amended: whenever any enumerated file is unreadable, the whole
line-counting phase fails with an error, so the analysis aborts rather
than producing a degraded record. -/
theorem line_count_abort_c7_amended (fs : String → Option (List String))
    (repoPath : String) (files : List String)
    (h : ∃ f ∈ files, fs (repoPath ++ "/" ++ f) = none) :
    ∃ e, filesWithLineCountModel fs repoPath files = Except.error e := by
  induction files with
  | nil =>
    rcases h with ⟨f, hf, -⟩
    cases hf
  | cons x t ih =>
    rcases h with ⟨f, hf, hnone⟩
    rcases List.mem_cons.mp hf with hfx | hft
    · subst hfx
      exact ⟨repoPath ++ "/" ++ f,
        by simp [filesWithLineCountModel, countLinesInFileModel, hnone]⟩
    · cases hc : countLinesInFileModel fs (repoPath ++ "/" ++ x) with
      | error e => exact ⟨e, by simp [filesWithLineCountModel, hc]⟩
      | ok n =>
        rcases ih ⟨f, hft, hnone⟩ with ⟨e, he⟩
        exact ⟨e, by simp [filesWithLineCountModel, hc, he]⟩

/-- Witness for the amended C7 at the concrete file system with one
unreadable file. -/
theorem line_count_abort_c7_amended_witness :
    ∃ e, filesWithLineCountModel fsEx "r" ["good.ts", "bad.ts"] =
      Except.error e :=
  line_count_abort_c7_amended fsEx "r" ["good.ts", "bad.ts"]
    ⟨"bad.ts", by decide, by decide⟩
